import Mathlib

/-!
# babyl: session handshake, wire framing and chat loops

A shallow embedding of `main.go` (`handleStream`, `readData`, `writeData` and the
dialing branch of `main`) together with the library routines it calls
(`encoding/base64`, `math/big` byte conversion, `strings.TrimSpace`).

* Go strings and byte slices are lists of byte values.
* `os.Exit` and a run-time slice failure are explicit outcomes.
* The blocking loops are run against a finite script of what the
  environment answers; a loop that has consumed the whole script is `running`.
* `Curve`, `Encrypt` and `Decrypt` live outside `main.go`; they are parameters.
-/

namespace Babyl

set_option autoImplicit false
set_option maxRecDepth 100000

/-! ## Bytes and strings -/

/-- A Go `[]byte` or `string`: the list of its byte values. -/
abbrev Bytes := List Nat

/-- The bytes of an ASCII string literal. -/
def ascii (s : String) : Bytes := s.data.map Char.toNat

/-! ## encoding/base64, `StdEncoding` -/

/-- The alphabet of `base64.StdEncoding` (`encodeStd`). -/
def encodeStd : Bytes :=
  ascii "ABCDEFGHIJKLMNOPQRSTUVWXYZabcdefghijklmnopqrstuvwxyz0123456789+/"

/-- The padding character `StdPadding`, an equals sign. -/
def padChar : Nat := 61

/-- The table lookup `enc.encode[i]`; every index used is masked to six bits. -/
def encodeAt (i : Nat) : Nat := encodeStd.getD i 0

/-- The body of `Encoding.Encode` for `StdEncoding`: three input bytes give four
characters, and a final group of one or two bytes is padded with `=`. -/
def EncodeToString : Bytes → Bytes
  | b0 :: b1 :: b2 :: rest =>
      let val := (b0 <<< 16) ||| (b1 <<< 8) ||| b2
      encodeAt ((val >>> 18) &&& 0x3F) :: encodeAt ((val >>> 12) &&& 0x3F) ::
        encodeAt ((val >>> 6) &&& 0x3F) :: encodeAt (val &&& 0x3F) :: EncodeToString rest
  | [b0, b1] =>
      let val := (b0 <<< 16) ||| (b1 <<< 8)
      [encodeAt ((val >>> 18) &&& 0x3F), encodeAt ((val >>> 12) &&& 0x3F),
        encodeAt ((val >>> 6) &&& 0x3F), padChar]
  | [b0] =>
      let val := b0 <<< 16
      [encodeAt ((val >>> 18) &&& 0x3F), encodeAt ((val >>> 12) &&& 0x3F), padChar, padChar]
  | [] => []

/-- The table `enc.decodeMap`: the position of a character in the alphabet, and
`0xFF` for every character outside it. -/
def decodeMap (c : Nat) : Nat :=
  let i := encodeStd.indexOf c
  if i < 64 then i else 0xFF

/-- The loop `for si < len(src) && (src[si] == '\n' || src[si] == '\r') { si++ }`,
on the part of the input that starts at `si`. -/
def skipNewlines : Bytes → Nat → Bytes × Nat
  | c :: rest, si => if c = 10 ∨ c = 13 then skipNewlines rest (si + 1) else (c :: rest, si)
  | [], si => ([], si)

/-- How the character loop of `decodeQuantum` ends. -/
inductive Gather where
  /-- An early `return si, 0, err`. -/
  | ret (rest : Bytes) (si : Nat) (err : Option Int)
  /-- The loop is left with `dlen` sextets in `dbuf`; conversion follows. -/
  | conv (rest : Bytes) (si : Nat) (dbuf : Bytes) (dlen : Nat) (err : Option Int)
deriving DecidableEq, Repr

/-- The character loop of `decodeQuantum` (`for j := 0; j < len(dbuf); j++`), on
the input from position `si` on: `j` sextets are already in `dbuf`. An error is
the offset carried by `CorruptInputError`. -/
def gather (src : Bytes) (si j : Nat) (dbuf : Bytes) : Gather :=
  match src with
  | [] =>
      if 4 ≤ j then .conv [] si dbuf 4 none
      else if j = 0 then .ret [] si none
      else .ret [] si (some ((si : Int) - j))
  | c :: rest =>
      if 4 ≤ j then .conv (c :: rest) si dbuf 4 none
      else
        let si1 := si + 1
        let out := decodeMap c
        if out ≠ 0xFF then gather rest si1 (j + 1) (dbuf ++ [out])
        else if c = 10 ∨ c = 13 then gather rest si1 j dbuf
        else if c ≠ padChar then .ret rest si1 (some ((si1 : Int) - 1))
        else if j < 2 then .ret rest si1 (some ((si1 : Int) - 1))
        else if j = 2 then
          match skipNewlines rest si1 with
          | ([], si2) => .ret [] si2 (some (si2 : Int))
          | (d :: rest2, si2) =>
              if d ≠ padChar then .ret (d :: rest2) si2 (some ((si2 : Int) - 1))
              else
                match skipNewlines rest2 (si2 + 1) with
                | ([], si3) => .conv [] si3 dbuf j none
                | (g :: rest3, si3) => .conv (g :: rest3) si3 dbuf j (some (si3 : Int))
        else
          match skipNewlines rest si1 with
          | ([], si3) => .conv [] si3 dbuf j none
          | (g :: rest3, si3) => .conv (g :: rest3) si3 dbuf j (some (si3 : Int))

/-- The three bytes `decodeQuantum` assembles from `dbuf`, of which `dlen - 1`
are written to the destination. -/
def quantumBytes (dbuf : Bytes) (dlen : Nat) : Bytes :=
  let val := (dbuf.getD 0 0 <<< 18) ||| (dbuf.getD 1 0 <<< 12) ||| (dbuf.getD 2 0 <<< 6) |||
    dbuf.getD 3 0
  let d2 := (val >>> 0) % 256
  let d1 := (val >>> 8) % 256
  let d0 := (val >>> 16) % 256
  match dlen with
  | 4 => [d0, d1, d2]
  | 3 => [d0, d1]
  | 2 => [d0]
  | _ => []

/-- What `decodeQuantum` returns: the unread input, `nsi`, the bytes written and
the error. -/
structure Quantum where
  rest : Bytes
  nsi : Nat
  out : Bytes
  err : Option Int
deriving DecidableEq, Repr

/-- One call of `Encoding.decodeQuantum` for `StdEncoding` (padded, not strict). -/
def decodeQuantum (src : Bytes) (si : Nat) : Quantum :=
  match gather src si 0 [] with
  | .ret rest nsi err => ⟨rest, nsi, [], err⟩
  | .conv rest nsi dbuf dlen err => ⟨rest, nsi, quantumBytes dbuf dlen, err⟩

/-- The loop of `Encoding.Decode`, one quantum per round. The word-at-a-time
shortcuts of `Decode` handle runs of alphabet characters exactly as
`decodeQuantum` does and are not modelled apart. Every round reads at least
one character, so `fuel = len(src)` rounds are enough. -/
def decodeLoop : Nat → Bytes → Nat → Bytes × Option Int
  | 0, _, _ => ([], none)
  | fuel + 1, src, si =>
      if src = [] then ([], none)
      else
        let q := decodeQuantum src si
        match q.err with
        | some e => (q.out, some e)
        | none =>
            let r := decodeLoop fuel q.rest q.nsi
            (q.out ++ r.1, r.2)

/-- The function `Encoding.DecodeString` of `StdEncoding`: the decoded bytes and
the error (`none` is Go's `nil`). -/
def DecodeString (s : Bytes) : Bytes × Option Int := decodeLoop s.length s 0

/-! ## math/big: `Int.Bytes` and `Int.SetBytes` -/

/-- Big-endian digits of `n` in base 256 without leading zeros, at most `fuel`
of them. -/
def bytesFuel : Nat → Nat → Bytes
  | 0, _ => []
  | fuel + 1, n => if n = 0 then [] else bytesFuel fuel (n / 256) ++ [n % 256]

/-- The method `(*big.Int).Bytes` on a non-negative value: the big-endian bytes
with no leading zero byte, empty for zero. A number `n` has at most `n` digits. -/
def natBytes (n : Nat) : Bytes := bytesFuel n n

/-- The method `(*big.Int).SetBytes`: the bytes read as a big-endian unsigned
integer. -/
def setBytes (bs : Bytes) : Nat := bs.foldl (fun acc b => acc * 256 + b) 0

/-! ## strings.TrimSpace -/

/-- The UTF-8 encodings of the code points for which `unicode.IsSpace` holds:
tab, LF, VT, FF, CR, space, U+0085, U+00A0, U+1680, U+2000 to U+200A, U+2028,
U+2029, U+202F, U+205F and U+3000. -/
def spaceRunes : List Bytes :=
  [[0x09], [0x0A], [0x0B], [0x0C], [0x0D], [0x20], [0xC2, 0x85], [0xC2, 0xA0],
   [0xE1, 0x9A, 0x80]] ++
  (List.range 11).map (fun i => [0xE2, 0x80, 0x80 + i]) ++
  [[0xE2, 0x80, 0xA8], [0xE2, 0x80, 0xA9], [0xE2, 0x80, 0xAF], [0xE2, 0x81, 0x9F],
   [0xE3, 0x80, 0x80]]

/-- Removal of leading white space, one rune per round. -/
def trimLeftFuel : Nat → Bytes → Bytes
  | 0, s => s
  | fuel + 1, s =>
      match spaceRunes.find? (fun r => decide (s.take r.length = r)) with
      | some r => trimLeftFuel fuel (s.drop r.length)
      | none => s

/-- Removal of trailing white space, one rune per round. -/
def trimRightFuel : Nat → Bytes → Bytes
  | 0, s => s
  | fuel + 1, s =>
      match spaceRunes.find? (fun r => decide (s.drop (s.length - r.length) = r)) with
      | some r => trimRightFuel fuel (s.take (s.length - r.length))
      | none => s

/-- The function `strings.TrimSpace`: all leading and trailing white space, as
`unicode.IsSpace` defines it, removed. A string of `n` bytes has at most `n`
runes. -/
def TrimSpace (s : Bytes) : Bytes :=
  let t := trimLeftFuel s.length s
  trimRightFuel t.length t

/-! ## Keys -/

/-- The fields of `elliptic.CurveParams` that the curve equation uses. -/
structure CurveParams where
  P : Nat
  B : Nat
  BitSize : Nat
deriving DecidableEq, Repr

/-- The method `CurveParams.IsOnCurve`: both coordinates below `P` and
`y² = x³ - 3x + b` modulo `P`. -/
def CurveParams.IsOnCurve (curve : CurveParams) (x y : Nat) : Bool :=
  decide (x < curve.P) && decide (y < curve.P) &&
    decide ((((x : Int) ^ 3 - 3 * x + curve.B) % curve.P) = ((y : Int) ^ 2) % curve.P)

/-- Modelled from the spec: `Curve()` is not defined in `main.go`; the spec has
the session use a 256-bit curve with 32-byte coordinates. This is the standard
library curve of that size, NIST P-256. -/
def p256 : CurveParams where
  P := 115792089210356248762697446949407573530086143415290314195533631308867097853951
  B := 41058363725152142129326129780047268409114441015993725554835256314039467401291
  BitSize := 256

/-- The struct `ecdsa.PublicKey`. -/
structure PublicKey where
  Curve : CurveParams
  X : Nat
  Y : Nat
deriving DecidableEq, Repr

/-- The struct `ecdsa.PrivateKey`, which embeds its public key. -/
structure PrivateKey where
  PublicKey : PublicKey
  D : Nat
deriving DecidableEq, Repr

/-! ## The environment and what the program does to it -/

/-- What a call of `ReadString('\n')` returns: the string and whether the
error is non-nil. -/
structure ReadResult where
  data : Bytes
  err : Bool
deriving DecidableEq, Repr

/-- An effect of the program that the outside can observe. -/
inductive Event where
  /-- A line written by `log.Println`. -/
  | log (line : Bytes)
  /-- Bytes printed on standard output. -/
  | stdout (text : Bytes)
  /-- A string handed to `rw.WriteString` and flushed. -/
  | send (frame : Bytes)
deriving DecidableEq, Repr

/-- Where a loop stands once the script is used up. -/
inductive Status where
  /-- Still in the loop, blocked on the next read. -/
  | running
  /-- The process has ended through `os.Exit(code)`. -/
  | exited (code : Nat)
deriving DecidableEq, Repr

/-- How the key exchange ends. -/
inductive Session where
  /-- The process has ended through `os.Exit(code)`. -/
  | exit (code : Nat)
  /-- A slice expression was out of range. -/
  | sliceFailure
  /-- The goroutines `readData(rw, readKey)` and
  `writeData(rw, &peerPublicKey, writeKey)` were started. -/
  | active (readKey : PrivateKey) (peerPublicKey : PublicKey) (writeKey : PrivateKey)
deriving DecidableEq, Repr

/-! ## main.go -/

/-- The value `serialPubKey`:
`append(sessionPubKey.X.Bytes(), sessionPrivKey.Y.Bytes()...)`. -/
def serialPubKey (sessionPrivKey : PrivateKey) : Bytes :=
  natBytes sessionPrivKey.PublicKey.X ++ natBytes sessionPrivKey.PublicKey.Y

/-- The frame a payload travels in: `base64.StdEncoding.EncodeToString(p) + "\n"`. -/
def frame (payload : Bytes) : Bytes := EncodeToString payload ++ ascii "\n"

/-- From `bytesPeerPubKey` to `peerPublicKey`: `[:32]` and `[32:]` are read with
`SetBytes`. With fewer than 32 bytes one of the two slice expressions is out
of range (`[:32]` beyond the capacity, or else `[32:]` beyond the length). -/
def peerPublicKey (curve : CurveParams) (bytesPeerPubKey : Bytes) : Option PublicKey :=
  if bytesPeerPubKey.length < 32 then none
  else
    let peerXBytes := bytesPeerPubKey.take 32
    let peerYBytes := bytesPeerPubKey.drop 32
    some { Curve := curve, X := setBytes peerXBytes, Y := setBytes peerYBytes }

/-- The steps shared by both sides after the own key is serialised: decode the
line of the peer, build its key, start the loops. -/
def acceptPeer (curve : CurveParams) (sessionPrivKey : PrivateKey)
    (serialPeerPubKey : Bytes) : Session :=
  match DecodeString serialPeerPubKey with
  | (_, some _) => .exit 1
  | (bytesPeerPubKey, none) =>
      match peerPublicKey curve bytesPeerPubKey with
      | none => .sliceFailure
      | some peerKey => .active sessionPrivKey peerKey sessionPrivKey

/-- The function `handleStream`. `curve` is `Curve()`, `generated` the outcome of
`ecdsa.GenerateKey` (`none` for an error) and `peerLine` what
`rw.ReadString('\n')` returns; its error is dropped. -/
def handleStream (curve : CurveParams) (generated : Option PrivateKey)
    (peerLine : ReadResult) : List Event × Session :=
  let hello := Event.log (ascii "New chat connection!")
  match generated with
  | none => ([hello], .exit 1)
  | some sessionPrivKey =>
      let serialPeerPubKey := peerLine.data
      ([hello, .send (frame (serialPubKey sessionPrivKey))],
        acceptPeer curve sessionPrivKey serialPeerPubKey)

/-- The dialing branch of `main` from the creation of `rw` on: the same exchange
as `handleStream`, with the own key written before the line of the peer is read. -/
def main (curve : CurveParams) (generated : Option PrivateKey)
    (peerLine : ReadResult) : List Event × Session :=
  match generated with
  | none => ([], .exit 1)
  | some sessionPrivKey =>
      let serialPeerPubKey := peerLine.data
      ([.send (frame (serialPubKey sessionPrivKey))],
        acceptPeer curve sessionPrivKey serialPeerPubKey)

/-- What one round of a loop leads to. -/
inductive Step where
  /-- The loop goes on to its next round. -/
  | next (out : List Event)
  /-- The process ends through `os.Exit(code)`. -/
  | exit (out : List Event) (code : Nat)
deriving DecidableEq, Repr

/-- The text `readData` prints for a message: green, the message, reset, prompt. -/
def display (str : Bytes) : Bytes := ascii "\x1b[32m" ++ str ++ ascii "\x1b[0m> "

/-- One round of the loop of `readData`; `Decrypt` returns the plaintext and
whether its error is non-nil. The error of `ReadString` is dropped. -/
def readStep (Decrypt : PrivateKey → Bytes → Bytes × Bool) (privKey : PrivateKey)
    (line : ReadResult) : Step :=
  let rawStr := line.data
  match DecodeString rawStr with
  | (_, some _) => .exit [] 1
  | (decodedStr, none) =>
      let (decryptedStr, err) := Decrypt privKey decodedStr
      let str := decryptedStr
      if str = [] ∨ err = true then .exit [] 1
      else if str ≠ ascii "\n" then
        if TrimSpace str ≠ ascii "exit" then .next [.stdout (display str)]
        else .exit [.stdout (ascii "Peer exited chat!\n")] 0
      else .next []

/-- The function `readData`, run against the lines the stream delivers. -/
def readData (Decrypt : PrivateKey → Bytes → Bytes × Bool) (privKey : PrivateKey) :
    List ReadResult → List Event × Status
  | [] => ([], .running)
  | line :: later =>
      match readStep Decrypt privKey line with
      | .exit out code => (out, .exited code)
      | .next out =>
          let r := readData Decrypt privKey later
          (out ++ r.1, r.2)

/-- What the environment answers in one round of `writeData`: the line read from
standard input, and whether `rw.WriteString` and `rw.Flush` report an error. -/
structure WriteTurn where
  stdin : ReadResult
  writeErr : Bool
  flushErr : Bool
deriving DecidableEq, Repr

/-- One round of the loop of `writeData`; `Encrypt` returns the sealed message
and whether its error is non-nil. What `WriteString` and `Flush` return is
dropped. -/
def writeStep (Encrypt : PublicKey → PrivateKey → Bytes → Bytes × Bool)
    (pubKey : PublicKey) (privKey : PrivateKey) (turn : WriteTurn) : Step :=
  let prompt := Event.stdout (ascii "> ")
  let stdData := turn.stdin.data
  if turn.stdin.err = true then .exit [prompt] 1
  else
    let (sendData, err) := Encrypt pubKey privKey stdData
    if err = true then .exit [prompt] 1
    else .next [prompt, .send (frame sendData)]

/-- The function `writeData`, run against the lines typed by the user. With the
script used up it has printed the prompt and waits for input. -/
def writeData (Encrypt : PublicKey → PrivateKey → Bytes → Bytes × Bool)
    (pubKey : PublicKey) (privKey : PrivateKey) : List WriteTurn → List Event × Status
  | [] => ([.stdout (ascii "> ")], .running)
  | turn :: later =>
      match writeStep Encrypt pubKey privKey turn with
      | .exit out code => (out, .exited code)
      | .next out =>
          let r := writeData Encrypt pubKey privKey later
          (out ++ r.1, r.2)

/-- The method `ReadString(delim)` of a buffered reader over a stream that holds
the given bytes and then ends: the bytes up to and including the first `delim`,
or everything with an error when there is none, and what stays unread. -/
def ReadString (delim : Nat) : Bytes → ReadResult × Bytes
  | [] => (⟨[], true⟩, [])
  | c :: rest =>
      if c = delim then (⟨[c], false⟩, rest)
      else
        let r := ReadString delim rest
        (⟨c :: r.1.data, r.1.err⟩, r.2)

/-! ## Notions of the specification -/

/-- ASCII lower case of one byte. -/
def lowerByte (c : Nat) : Nat := if 65 ≤ c ∧ c ≤ 90 then c + 32 else c

/-- Case-insensitive equality of two ASCII strings, as the description of the
inbound loop words the comparison with the termination keyword. -/
def equalFold (a b : Bytes) : Bool := decide (a.map lowerByte = b.map lowerByte)

/-- The eight bits of a byte, the most significant first. -/
def byteBits (b : Nat) : List Bool :=
  [b.testBit 7, b.testBit 6, b.testBit 5, b.testBit 4, b.testBit 3, b.testBit 2, b.testBit 1,
    b.testBit 0]

/-- The number a string of bits denotes, the most significant bit first. -/
def bitsValue (bits : List Bool) : Nat := bits.foldl (fun acc bit => 2 * acc + bit.toNat) 0

/-- A bit string cut into groups of six bits from the left; zero bits are added
on the right of a last group that is short. -/
def sextets : List Bool → List Nat
  | [] => []
  | b0 :: b1 :: b2 :: b3 :: b4 :: b5 :: rest => bitsValue [b0, b1, b2, b3, b4, b5] :: sextets rest
  | short => [bitsValue (short ++ List.replicate (6 - short.length) false)]

/-- Base 64 as RFC 4648 words it: the input bits, taken left to right, are cut
into 6-bit groups, each group is replaced by its character of the alphabet, and
`=` is added until the number of characters is a multiple of four. -/
def base64Rfc (p : Bytes) : Bytes :=
  let chars := (sextets (p.map byteBits).flatten).map encodeAt
  chars ++ List.replicate ((4 - chars.length % 4) % 4) padChar

/-- A payload is well formed when every element is a byte value. -/
def IsBytes (p : Bytes) : Prop := ∀ b ∈ p, b < 256

instance (p : Bytes) : Decidable (IsBytes p) := by
  unfold IsBytes
  infer_instance

/-- A stand-in cipher that leaves the message as it is and never fails. -/
def plainDecrypt : PrivateKey → Bytes → Bytes × Bool := fun _ m => (m, false)

/-- A stand-in cipher that leaves the message as it is and never fails. -/
def plainEncrypt : PublicKey → PrivateKey → Bytes → Bytes × Bool := fun _ _ m => (m, false)

/-- A P-256 key pair, `D = 379`: its public point is on the curve and the first
coordinate has 31 bytes. -/
def keyShortX : PrivateKey :=
  { PublicKey :=
      { Curve := p256
        X := 150648118917499357041517299508400176508249743050667881623588564208998400010
        Y := 84717705411573186131289082852425264859825270454499335430265137682489917325202 }
    D := 379 }

/-- A P-256 key pair, `D = 43`: its public point is on the curve and the second
coordinate has 31 bytes. -/
def keyShortY : PrivateKey :=
  { PublicKey :=
      { Curve := p256
        X := 68940400736695912148960890999721852106142292820061709409680925607912859161229
        Y := 107423973961867739917642914452788810230878776317276661678353934116262542999 }
    D := 43 }

/-- The input a call of `gather` leaves unread. -/
def Gather.unread : Gather → Bytes
  | .ret rest _ _ => rest
  | .conv rest _ _ _ _ => rest

/-! ## Lemmas on the library routines -/

theorem decodeMap_encodeAt : ∀ i, i < 64 → decodeMap (encodeAt i) = i := by decide

theorem encodeAt_plain : ∀ i, i < 64 →
    encodeAt i ≠ 10 ∧ encodeAt i ≠ 13 ∧ encodeAt i ≠ padChar ∧ encodeAt i ∈ encodeStd := by
  decide

theorem mask6_lt (x : Nat) : x &&& 0x3F < 64 :=
  Nat.lt_of_le_of_lt Nat.and_le_right (by decide)

theorem gather_alphabet (i : Nat) (hi : i < 64) (rest : Bytes) (si j : Nat) (hj : j < 4)
    (dbuf : Bytes) :
    gather (encodeAt i :: rest) si j dbuf = gather rest (si + 1) (j + 1) (dbuf ++ [i]) := by
  have h1 := decodeMap_encodeAt i hi
  have h2 : ¬ (4 ≤ j) := by omega
  have h3 : i ≠ 255 := by omega
  rw [gather]
  simp [h1, h2, h3]

theorem or_eq_add (a b i : Nat) (hb : b < 2 ^ i) (ha : 2 ^ i ∣ a) : a ||| b = a + b := by
  obtain ⟨k, rfl⟩ := ha
  exact (Nat.mul_add_lt_is_or hb k).symm

theorem or3_eq (b0 b1 b2 : Nat) (h1 : b1 < 256) (h2 : b2 < 256) :
    (b0 <<< 16) ||| (b1 <<< 8) ||| b2 = b0 * 65536 + b1 * 256 + b2 := by
  rw [Nat.shiftLeft_eq, Nat.shiftLeft_eq]
  rw [or_eq_add (b0 * 2 ^ 16) (b1 * 2 ^ 8) 16 (by omega) ⟨b0, by ring⟩]
  rw [or_eq_add (b0 * 2 ^ 16 + b1 * 2 ^ 8) b2 8 (by omega) ⟨b0 * 2 ^ 8 + b1, by ring⟩]

theorem or2_eq (b0 b1 : Nat) (h1 : b1 < 256) :
    (b0 <<< 16) ||| (b1 <<< 8) = b0 * 65536 + b1 * 256 := by
  rw [Nat.shiftLeft_eq, Nat.shiftLeft_eq]
  rw [or_eq_add (b0 * 2 ^ 16) (b1 * 2 ^ 8) 16 (by omega) ⟨b0, by ring⟩]

theorem mask6_eq (x : Nat) : x &&& 0x3F = x % 64 := by
  have := Nat.and_pow_two_sub_one_eq_mod x 6
  simpa using this

theorem or4_eq (s0 s1 s2 s3 : Nat) (h1 : s1 < 64) (h2 : s2 < 64) (h3 : s3 < 64) :
    (s0 <<< 18) ||| (s1 <<< 12) ||| (s2 <<< 6) ||| s3
      = s0 * 262144 + s1 * 4096 + s2 * 64 + s3 := by
  rw [Nat.shiftLeft_eq, Nat.shiftLeft_eq, Nat.shiftLeft_eq]
  rw [or_eq_add (s0 * 2 ^ 18) (s1 * 2 ^ 12) 18 (by omega) ⟨s0, by ring⟩]
  rw [or_eq_add (s0 * 2 ^ 18 + s1 * 2 ^ 12) (s2 * 2 ^ 6) 12 (by omega)
    ⟨s0 * 2 ^ 6 + s1, by ring⟩]
  rw [or_eq_add (s0 * 2 ^ 18 + s1 * 2 ^ 12 + s2 * 2 ^ 6) s3 6 (by omega)
    ⟨s0 * 2 ^ 12 + s1 * 2 ^ 6 + s2, by ring⟩]

/-- Four sextets of three bytes, reassembled. -/
theorem quantum_three (b0 b1 b2 : Nat) (h0 : b0 < 256) (h1 : b1 < 256) (h2 : b2 < 256) :
    quantumBytes
      [(((b0 <<< 16) ||| (b1 <<< 8) ||| b2) >>> 18) &&& 0x3F,
       (((b0 <<< 16) ||| (b1 <<< 8) ||| b2) >>> 12) &&& 0x3F,
       (((b0 <<< 16) ||| (b1 <<< 8) ||| b2) >>> 6) &&& 0x3F,
       ((b0 <<< 16) ||| (b1 <<< 8) ||| b2) &&& 0x3F] 4 = [b0, b1, b2] := by
  rw [or3_eq b0 b1 b2 h1 h2]
  simp only [quantumBytes, List.getD_cons_zero, List.getD_cons_succ, mask6_eq,
    Nat.shiftRight_eq_div_pow]
  rw [or4_eq _ _ _ _ (Nat.mod_lt _ (by decide)) (Nat.mod_lt _ (by decide))
    (Nat.mod_lt _ (by decide))]
  norm_num
  refine ⟨?_, ?_, ?_⟩ <;> omega

theorem quantum_two (b0 b1 : Nat) (h0 : b0 < 256) (h1 : b1 < 256) :
    quantumBytes
      [(((b0 <<< 16) ||| (b1 <<< 8)) >>> 18) &&& 0x3F,
       (((b0 <<< 16) ||| (b1 <<< 8)) >>> 12) &&& 0x3F,
       (((b0 <<< 16) ||| (b1 <<< 8)) >>> 6) &&& 0x3F] 3 = [b0, b1] := by
  rw [or2_eq b0 b1 h1]
  simp only [quantumBytes, List.getD_cons_zero, List.getD_cons_succ, mask6_eq,
    Nat.shiftRight_eq_div_pow, List.getD_nil]
  rw [or4_eq _ _ _ _ (Nat.mod_lt _ (by decide)) (Nat.mod_lt _ (by decide))
    (by decide)]
  norm_num
  refine ⟨?_, ?_⟩ <;> omega

theorem quantum_one (b0 : Nat) (h0 : b0 < 256) :
    quantumBytes [((b0 <<< 16) >>> 18) &&& 0x3F, ((b0 <<< 16) >>> 12) &&& 0x3F] 2 = [b0] := by
  have e : b0 <<< 16 = b0 * 65536 := by rw [Nat.shiftLeft_eq]
  rw [e]
  simp only [quantumBytes, List.getD_cons_zero, List.getD_cons_succ, mask6_eq,
    Nat.shiftRight_eq_div_pow, List.getD_nil]
  rw [or4_eq _ _ _ _ (Nat.mod_lt _ (by decide)) (by decide) (by decide)]
  norm_num
  omega

theorem skipNewlines_lf (si : Nat) : skipNewlines [10] si = ([], si + 1) := by
  simp [skipNewlines]

theorem decodeLoop_nil (fuel si : Nat) : decodeLoop fuel [] si = ([], none) := by
  cases fuel <;> simp [decodeLoop]

/-- A full group of three bytes is read back by one quantum. -/
theorem decodeQuantum_three (b0 b1 b2 : Nat) (h0 : b0 < 256) (h1 : b1 < 256) (h2 : b2 < 256)
    (tail : Bytes) (si : Nat) :
    decodeQuantum (EncodeToString [b0, b1, b2] ++ tail) si = ⟨tail, si + 4, [b0, b1, b2], none⟩ := by
  simp only [EncodeToString, decodeQuantum, List.cons_append, List.nil_append]
  rw [gather_alphabet _ (mask6_lt _) _ _ _ (by decide),
    gather_alphabet _ (mask6_lt _) _ _ _ (by decide),
    gather_alphabet _ (mask6_lt _) _ _ _ (by decide),
    gather_alphabet _ (mask6_lt _) _ _ _ (by decide)]
  have hg : ∀ (d : Bytes), gather tail (si + 1 + 1 + 1 + 1) (0 + 1 + 1 + 1 + 1) d
      = .conv tail (si + 4) d 4 none := by
    intro d
    cases tail <;> simp [gather]
  rw [hg]
  simp only [List.nil_append, List.cons_append]
  rw [quantum_three b0 b1 b2 h0 h1 h2]

theorem gather_pad_two (s0 s1 : Nat) (si : Nat) :
    gather [padChar, padChar, 10] si 2 [s0, s1] = .conv [] (si + 3) [s0, s1] 2 none := by
  rw [gather]
  simp [decodeMap, encodeStd, ascii, padChar, skipNewlines]

theorem gather_pad_three (s0 s1 s2 : Nat) (si : Nat) :
    gather [padChar, 10] si 3 [s0, s1, s2] = .conv [] (si + 2) [s0, s1, s2] 3 none := by
  rw [gather]
  simp [decodeMap, encodeStd, ascii, padChar, skipNewlines]

theorem decodeQuantum_two (b0 b1 : Nat) (h0 : b0 < 256) (h1 : b1 < 256) (si : Nat) :
    decodeQuantum (EncodeToString [b0, b1] ++ [10]) si = ⟨[], si + 5, [b0, b1], none⟩ := by
  simp only [EncodeToString, decodeQuantum, List.cons_append, List.nil_append]
  rw [gather_alphabet _ (mask6_lt _) _ _ _ (by decide),
    gather_alphabet _ (mask6_lt _) _ _ _ (by decide),
    gather_alphabet _ (mask6_lt _) _ _ _ (by decide)]
  simp only [List.nil_append, List.cons_append, Nat.zero_add, Nat.reduceAdd]
  rw [gather_pad_three]
  simp only [quantum_two b0 b1 h0 h1]

theorem decodeQuantum_one (b0 : Nat) (h0 : b0 < 256) (si : Nat) :
    decodeQuantum (EncodeToString [b0] ++ [10]) si = ⟨[], si + 5, [b0], none⟩ := by
  simp only [EncodeToString, decodeQuantum, List.cons_append, List.nil_append]
  rw [gather_alphabet _ (mask6_lt _) _ _ _ (by decide),
    gather_alphabet _ (mask6_lt _) _ _ _ (by decide)]
  simp only [List.nil_append, List.cons_append, Nat.zero_add, Nat.reduceAdd]
  rw [gather_pad_two]
  simp only [quantum_one b0 h0]

theorem decodeQuantum_lf (si : Nat) : decodeQuantum [10] si = ⟨[], si + 1, [], none⟩ := by
  simp [decodeQuantum, gather, decodeMap, encodeStd, ascii]

theorem EncodeToString_cons3 (b0 b1 b2 : Nat) (rest : Bytes) :
    EncodeToString (b0 :: b1 :: b2 :: rest) = EncodeToString [b0, b1, b2] ++ EncodeToString rest := by
  simp [EncodeToString]

/-- The decoding loop reads a frame back: with enough rounds, the encoding of a
payload followed by a line feed decodes to the payload without error. -/
theorem decodeLoop_frame (p : Bytes) (hp : IsBytes p) :
    ∀ fuel si, (EncodeToString p).length + 1 ≤ fuel →
      decodeLoop fuel (EncodeToString p ++ [10]) si = (p, none) := by
  induction p using EncodeToString.induct with
  | case1 b0 b1 b2 rest ih =>
      intro fuel si hf
      have h0 : b0 < 256 := hp b0 (by simp)
      have h1 : b1 < 256 := hp b1 (by simp)
      have h2 : b2 < 256 := hp b2 (by simp)
      have hrest : IsBytes rest := fun b hb => hp b (by simp [hb])
      rw [EncodeToString_cons3] at hf ⊢
      obtain ⟨f, rfl⟩ : ∃ f, fuel = f + 1 := ⟨fuel - 1, by omega⟩
      have hne : EncodeToString [b0, b1, b2] ++ EncodeToString rest ++ [10] ≠ [] := by
        simp [EncodeToString]
      rw [decodeLoop, if_neg hne, List.append_assoc, decodeQuantum_three b0 b1 b2 h0 h1 h2]
      simp only
      rw [ih hrest f (si + 4) (by simp [EncodeToString] at hf; omega)]
      simp
  | case2 b0 b1 =>
      intro fuel si hf
      have h0 : b0 < 256 := hp b0 (by simp)
      have h1 : b1 < 256 := hp b1 (by simp)
      obtain ⟨f, rfl⟩ : ∃ f, fuel = f + 1 := ⟨fuel - 1, by omega⟩
      have hne : EncodeToString [b0, b1] ++ [10] ≠ [] := by simp
      rw [decodeLoop, if_neg hne, decodeQuantum_two b0 b1 h0 h1]
      simp [decodeLoop_nil]
  | case3 b0 =>
      intro fuel si hf
      have h0 : b0 < 256 := hp b0 (by simp)
      obtain ⟨f, rfl⟩ : ∃ f, fuel = f + 1 := ⟨fuel - 1, by omega⟩
      have hne : EncodeToString [b0] ++ [10] ≠ [] := by simp
      rw [decodeLoop, if_neg hne, decodeQuantum_one b0 h0]
      simp [decodeLoop_nil]
  | case4 =>
      intro fuel si hf
      obtain ⟨f, rfl⟩ : ∃ f, fuel = f + 1 := ⟨fuel - 1, by omega⟩
      simp only [EncodeToString, List.nil_append]
      rw [decodeLoop, if_neg (by simp), decodeQuantum_lf]
      simp [decodeLoop_nil]

theorem DecodeString_frame (p : Bytes) (hp : IsBytes p) : DecodeString (frame p) = (p, none) := by
  have : ascii "\n" = [10] := by decide
  rw [DecodeString, frame, this]
  exact decodeLoop_frame p hp _ 0 (by simp)

/-! ### Big-endian bytes -/

theorem bytesFuel_eq_digits : ∀ fuel n, n ≤ fuel → bytesFuel fuel n = (Nat.digits 256 n).reverse := by
  intro fuel
  induction fuel with
  | zero =>
      intro n hn
      have : n = 0 := by omega
      subst this
      simp [bytesFuel]
  | succ f ih =>
      intro n hn
      by_cases h0 : n = 0
      · subst h0
        simp [bytesFuel]
      · have hpos : 0 < n := Nat.pos_of_ne_zero h0
        have hdiv : n / 256 ≤ f := by omega
        rw [bytesFuel, if_neg h0, ih _ hdiv, Nat.digits_def' (by decide) hpos]
        simp

theorem natBytes_eq_digits (n : Nat) : natBytes n = (Nat.digits 256 n).reverse :=
  bytesFuel_eq_digits n n (Nat.le_refl n)

theorem setBytes_append (a b : Bytes) :
    setBytes (a ++ b) = setBytes a * 256 ^ b.length + setBytes b := by
  induction b using List.reverseRecOn with
  | nil => simp [setBytes]
  | append_singleton b x ih =>
      have e : setBytes (a ++ (b ++ [x])) = setBytes (a ++ b) * 256 + x := by
        simp [setBytes, List.foldl_append]
      have e2 : setBytes (b ++ [x]) = setBytes b * 256 + x := by
        simp [setBytes, List.foldl_append]
      rw [e, e2, ih]
      simp [pow_succ]
      ring

theorem setBytes_eq_ofDigits (bs : Bytes) : setBytes bs = Nat.ofDigits 256 bs.reverse := by
  induction bs using List.reverseRecOn with
  | nil => simp [setBytes]
  | append_singleton b x ih =>
      have e2 : setBytes (b ++ [x]) = setBytes b * 256 + x := by
        simp [setBytes, List.foldl_append]
      rw [e2, ih]
      simp [Nat.ofDigits_cons]
      ring

theorem setBytes_natBytes (n : Nat) : setBytes (natBytes n) = n := by
  rw [setBytes_eq_ofDigits, natBytes_eq_digits, List.reverse_reverse, Nat.ofDigits_digits]

theorem natBytes_isBytes (n : Nat) : IsBytes (natBytes n) := by
  intro b hb
  rw [natBytes_eq_digits, List.mem_reverse] at hb
  exact Nat.digits_lt_base (by decide) hb

theorem natBytes_length_full (n : Nat) (hlo : 2 ^ 248 ≤ n) (hhi : n < 2 ^ 256) :
    (natBytes n).length = 32 := by
  rw [natBytes_eq_digits, List.length_reverse]
  have h1 : n < 256 ^ (Nat.digits 256 n).length := Nat.lt_base_pow_length_digits (by decide)
  have h2 : 256 ^ (Nat.digits 256 n).length ≤ 256 * n :=
    Nat.base_pow_length_digits_le 256 n (by decide) (by omega)
  have hge : 32 ≤ (Nat.digits 256 n).length := by
    by_contra hlt
    have : (Nat.digits 256 n).length ≤ 31 := by omega
    have h3 : 256 ^ (Nat.digits 256 n).length ≤ 256 ^ 31 := Nat.pow_le_pow_right (by decide) this
    have h4 : (256 : Nat) ^ 31 = 2 ^ 248 := by norm_num
    omega
  have hle : (Nat.digits 256 n).length ≤ 32 := by
    by_contra hgt
    have : 33 ≤ (Nat.digits 256 n).length := by omega
    have h3 : 256 ^ 33 ≤ 256 ^ (Nat.digits 256 n).length := Nat.pow_le_pow_right (by decide) this
    have h4 : (256 : Nat) ^ 33 = 256 * 2 ^ 256 := by norm_num
    omega
  omega

theorem natBytes_length_short (n : Nat) (hhi : n < 2 ^ 248) : (natBytes n).length < 32 := by
  rw [natBytes_eq_digits, List.length_reverse]
  by_cases h0 : n = 0
  · subst h0
    simp
  · have h2 : 256 ^ (Nat.digits 256 n).length ≤ 256 * n :=
      Nat.base_pow_length_digits_le 256 n (by decide) h0
    by_contra hge
    have : 32 ≤ (Nat.digits 256 n).length := by omega
    have h3 : 256 ^ 32 ≤ 256 ^ (Nat.digits 256 n).length := Nat.pow_le_pow_right (by decide) this
    have h4 : (256 : Nat) ^ 32 = 256 * 2 ^ 248 := by norm_num
    omega

/-- A key whose coordinates both fill all 32 bytes is serialised in 64 bytes. -/
theorem serialPubKey_length_full (k : PrivateKey)
    (hx : 2 ^ 248 ≤ k.PublicKey.X) (hx2 : k.PublicKey.X < 2 ^ 256)
    (hy : 2 ^ 248 ≤ k.PublicKey.Y) (hy2 : k.PublicKey.Y < 2 ^ 256) :
    (serialPubKey k).length = 64 := by
  rw [serialPubKey, List.length_append, natBytes_length_full _ hx hx2,
    natBytes_length_full _ hy hy2]

/-- A key with a leading zero byte in a coordinate is serialised in fewer than 64
bytes. -/
theorem serialPubKey_length_short (k : PrivateKey)
    (hx2 : k.PublicKey.X < 2 ^ 256) (hy2 : k.PublicKey.Y < 2 ^ 256)
    (h : k.PublicKey.X < 2 ^ 248 ∨ k.PublicKey.Y < 2 ^ 248) :
    (serialPubKey k).length < 64 := by
  rw [serialPubKey, List.length_append]
  have bound : ∀ n, n < 2 ^ 256 → (natBytes n).length ≤ 32 := by
    intro n hn
    by_cases hlo : 2 ^ 248 ≤ n
    · exact Nat.le_of_eq (natBytes_length_full n hlo hn)
    · exact Nat.le_of_lt (natBytes_length_short n (by omega))
  have bx := bound _ hx2
  have by2 := bound _ hy2
  rcases h with h | h
  · have := natBytes_length_short _ h
    omega
  · have := natBytes_length_short _ h
    omega

/-- A key whose first coordinate fills all 32 bytes is read back as it was. -/
theorem peerPublicKey_serial_full (curve : CurveParams) (k : PrivateKey)
    (hlo : 2 ^ 248 ≤ k.PublicKey.X) (hhi : k.PublicKey.X < 2 ^ 256) :
    peerPublicKey curve (serialPubKey k) = some ⟨curve, k.PublicKey.X, k.PublicKey.Y⟩ := by
  have hl := natBytes_length_full _ hlo hhi
  have hlen : ¬ (serialPubKey k).length < 32 := by
    simp [serialPubKey, hl]
  rw [peerPublicKey, if_neg hlen]
  simp only [serialPubKey]
  rw [List.take_left' hl, List.drop_left' hl, setBytes_natBytes, setBytes_natBytes]


/-! ### Shape of an encoding -/

theorem EncodeToString_chars (p : Bytes) : ∀ c ∈ EncodeToString p, c ∈ encodeStd ∨ c = padChar := by
  induction p using EncodeToString.induct with
  | case1 b0 b1 b2 rest ih =>
      intro c hc
      simp only [EncodeToString, List.mem_cons] at hc
      rcases hc with h | h | h | h | h
      · exact Or.inl (h ▸ (encodeAt_plain _ (mask6_lt _)).2.2.2)
      · exact Or.inl (h ▸ (encodeAt_plain _ (mask6_lt _)).2.2.2)
      · exact Or.inl (h ▸ (encodeAt_plain _ (mask6_lt _)).2.2.2)
      · exact Or.inl (h ▸ (encodeAt_plain _ (mask6_lt _)).2.2.2)
      · exact ih c h
  | case2 b0 b1 =>
      intro c hc
      simp only [EncodeToString, List.mem_cons, List.not_mem_nil, or_false] at hc
      rcases hc with h | h | h | h
      · exact Or.inl (h ▸ (encodeAt_plain _ (mask6_lt _)).2.2.2)
      · exact Or.inl (h ▸ (encodeAt_plain _ (mask6_lt _)).2.2.2)
      · exact Or.inl (h ▸ (encodeAt_plain _ (mask6_lt _)).2.2.2)
      · exact Or.inr h
  | case3 b0 =>
      intro c hc
      simp only [EncodeToString, List.mem_cons, List.not_mem_nil, or_false] at hc
      rcases hc with h | h | h | h
      · exact Or.inl (h ▸ (encodeAt_plain _ (mask6_lt _)).2.2.2)
      · exact Or.inl (h ▸ (encodeAt_plain _ (mask6_lt _)).2.2.2)
      · exact Or.inr h
      · exact Or.inr h
  | case4 =>
      intro c hc
      simp [EncodeToString] at hc

theorem lf_not_in_encoding (p : Bytes) : 10 ∉ EncodeToString p := by
  intro h
  rcases EncodeToString_chars p 10 h with h1 | h1
  · exact absurd h1 (by decide)
  · exact absurd h1 (by decide)

theorem EncodeToString_length (p : Bytes) :
    (EncodeToString p).length = 4 * ((p.length + 2) / 3) := by
  induction p using EncodeToString.induct with
  | case1 b0 b1 b2 rest ih =>
      simp only [EncodeToString, List.length_cons, ih]
      omega
  | case2 b0 b1 => simp [EncodeToString]
  | case3 b0 => simp [EncodeToString]
  | case4 => simp [EncodeToString]

theorem ReadString_line (delim : Nat) (body rest : Bytes) (h : delim ∉ body) :
    ReadString delim (body ++ [delim] ++ rest) = (⟨body ++ [delim], false⟩, rest) := by
  induction body with
  | nil => simp [ReadString]
  | cons c body ih =>
      have hc : c ≠ delim := fun e => h (by simp [e])
      have hb : delim ∉ body := fun e => h (by simp [e])
      have e : c :: body ++ [delim] ++ rest = c :: (body ++ [delim] ++ rest) := by simp
      rw [e, ReadString, if_neg hc, ih hb]
      simp

/-! ### The rounds granted to the decoding loop are enough -/

theorem skipNewlines_length (s : Bytes) : ∀ si, (skipNewlines s si).1.length ≤ s.length := by
  induction s with
  | nil => intro si; simp [skipNewlines]
  | cons c rest ih =>
      intro si
      rw [skipNewlines]
      split
      · exact Nat.le_succ_of_le (ih _)
      · simp

theorem gather_unread (src : Bytes) : ∀ si j dbuf,
    (gather src si j dbuf).unread.length ≤ src.length ∧
      (j < 4 → src ≠ [] → (gather src si j dbuf).unread.length < src.length) := by
  induction src with
  | nil =>
      intro si j dbuf
      rw [gather]
      split_ifs <;> simp [Gather.unread]
  | cons c rest ih =>
      intro si j dbuf
      have hs1 := skipNewlines_length rest (si + 1)
      rw [gather]
      by_cases h4 : 4 ≤ j
      · rw [if_pos h4]
        simp only [Gather.unread]
        exact ⟨Nat.le_refl _, fun h _ => absurd h4 (by omega)⟩
      rw [if_neg h4]
      dsimp only
      by_cases hout : decodeMap c ≠ 255
      · rw [if_pos hout]
        have := (ih (si + 1) (j + 1) (dbuf ++ [decodeMap c])).1
        simp only [List.length_cons]
        exact ⟨by omega, fun _ _ => by omega⟩
      rw [if_neg hout]
      by_cases hnl : c = 10 ∨ c = 13
      · rw [if_pos hnl]
        have := (ih (si + 1) j dbuf).1
        simp only [List.length_cons]
        exact ⟨by omega, fun _ _ => by omega⟩
      rw [if_neg hnl]
      by_cases hpad : c ≠ padChar
      · rw [if_pos hpad]
        simp [Gather.unread]
      rw [if_neg hpad]
      by_cases hj2 : j < 2
      · rw [if_pos hj2]
        simp [Gather.unread]
      rw [if_neg hj2]
      by_cases hj : j = 2
      · rw [if_pos hj]
        split
        · simp [Gather.unread]
        · rename_i d rest2 si2 heq
          rw [heq] at hs1
          have hs2 := skipNewlines_length rest2 (si2 + 1)
          simp only [List.length_cons] at hs1
          by_cases hd : d ≠ padChar
          · rw [if_pos hd]
            simp only [Gather.unread, List.length_cons]
            exact ⟨by omega, fun _ _ => by omega⟩
          · rw [if_neg hd]
            split
            · simp [Gather.unread]
            · rename_i g rest3 si3 heq3
              rw [heq3] at hs2
              simp only [Gather.unread, List.length_cons] at hs2 ⊢
              exact ⟨by omega, fun _ _ => by omega⟩
      · rw [if_neg hj]
        split
        · simp [Gather.unread]
        · rename_i g rest3 si3 heq3
          rw [heq3] at hs1
          simp only [Gather.unread, List.length_cons] at hs1 ⊢
          exact ⟨by omega, fun _ _ => by omega⟩

theorem decodeQuantum_rest (src : Bytes) (si : Nat) (h : src ≠ []) :
    (decodeQuantum src si).rest.length < src.length := by
  have := (gather_unread src si 0 []).2 (by decide) h
  rw [decodeQuantum]
  split <;> rename_i heq <;> rw [heq] at this <;> exact this

theorem decodeLoop_fuel : ∀ fuel1 fuel2 src si, src.length ≤ fuel1 → src.length ≤ fuel2 →
    decodeLoop fuel1 src si = decodeLoop fuel2 src si := by
  intro fuel1
  induction fuel1 with
  | zero =>
      intro fuel2 src si h1 _
      have : src = [] := List.length_eq_zero.mp (by omega)
      subst this
      rw [decodeLoop_nil, decodeLoop_nil]
  | succ f1 ih =>
      intro fuel2 src si h1 h2
      by_cases hsrc : src = []
      · subst hsrc
        rw [decodeLoop_nil, decodeLoop_nil]
      · have hpos : 0 < src.length := List.length_pos.mpr hsrc
        obtain ⟨f2, rfl⟩ : ∃ f2, fuel2 = f2 + 1 := ⟨fuel2 - 1, by omega⟩
        have hq := decodeQuantum_rest src si hsrc
        rw [decodeLoop, decodeLoop, if_neg hsrc, if_neg hsrc]
        simp only
        rw [ih f2 (decodeQuantum src si).rest (decodeQuantum src si).nsi (by omega) (by omega)]

/-- More rounds than `len(src)` change nothing: `DecodeString` never stops for
lack of rounds. -/
theorem DecodeString_total (s : Bytes) (fuel : Nat) (h : s.length ≤ fuel) :
    decodeLoop fuel s 0 = DecodeString s :=
  decodeLoop_fuel fuel s.length s 0 h (Nat.le_refl _)


/-! ### The encoder against RFC 4648 -/

theorem byte_bits (b : Nat) (h : b < 256) :
    b = 128 * (b.testBit 7).toNat + 64 * (b.testBit 6).toNat + 32 * (b.testBit 5).toNat +
        16 * (b.testBit 4).toNat + 8 * (b.testBit 3).toNat + 4 * (b.testBit 2).toNat +
        2 * (b.testBit 1).toNat + (b.testBit 0).toNat ∧
      (b.testBit 7).toNat ≤ 1 ∧ (b.testBit 6).toNat ≤ 1 ∧ (b.testBit 5).toNat ≤ 1 ∧
      (b.testBit 4).toNat ≤ 1 ∧ (b.testBit 3).toNat ≤ 1 ∧ (b.testBit 2).toNat ≤ 1 ∧
      (b.testBit 1).toNat ≤ 1 ∧ (b.testBit 0).toNat ≤ 1 := by
  refine ⟨?_, Bool.toNat_le _, Bool.toNat_le _, Bool.toNat_le _, Bool.toNat_le _,
    Bool.toNat_le _, Bool.toNat_le _, Bool.toNat_le _, Bool.toNat_le _⟩
  simp only [Nat.toNat_testBit]
  norm_num
  omega

theorem sextets_three (b0 b1 b2 : Nat) (h0 : b0 < 256) (h1 : b1 < 256) (h2 : b2 < 256)
    (tail : List Bool) :
    sextets (byteBits b0 ++ (byteBits b1 ++ (byteBits b2 ++ tail))) =
      ((((b0 <<< 16) ||| (b1 <<< 8) ||| b2) >>> 18) &&& 0x3F) ::
      ((((b0 <<< 16) ||| (b1 <<< 8) ||| b2) >>> 12) &&& 0x3F) ::
      ((((b0 <<< 16) ||| (b1 <<< 8) ||| b2) >>> 6) &&& 0x3F) ::
      (((b0 <<< 16) ||| (b1 <<< 8) ||| b2) &&& 0x3F) :: sextets tail := by
  rw [or3_eq b0 b1 b2 h1 h2]
  obtain ⟨e0, _, _, _, _, _, _, _, _⟩ := byte_bits b0 h0
  obtain ⟨e1, _, _, _, _, _, _, _, _⟩ := byte_bits b1 h1
  obtain ⟨e2, _, _, _, _, _, _, _, _⟩ := byte_bits b2 h2
  simp only [byteBits, List.cons_append, List.nil_append, sextets, bitsValue, List.foldl_cons,
    List.foldl_nil, mask6_eq, Nat.shiftRight_eq_div_pow, List.cons.injEq, and_true]
  simp only [Nat.reducePow, Nat.mul_zero, Nat.zero_add]
  refine ⟨?_, ?_, ?_, ?_, rfl⟩ <;> omega

theorem sextets_two (b0 b1 : Nat) (h0 : b0 < 256) (h1 : b1 < 256) :
    sextets (byteBits b0 ++ byteBits b1) =
      [(((b0 <<< 16) ||| (b1 <<< 8)) >>> 18) &&& 0x3F,
       (((b0 <<< 16) ||| (b1 <<< 8)) >>> 12) &&& 0x3F,
       (((b0 <<< 16) ||| (b1 <<< 8)) >>> 6) &&& 0x3F] := by
  rw [or2_eq b0 b1 h1]
  obtain ⟨e0, _, _, _, _, _, _, _, _⟩ := byte_bits b0 h0
  obtain ⟨e1, _, _, _, _, _, _, _, _⟩ := byte_bits b1 h1
  simp only [byteBits, List.cons_append, List.nil_append, sextets, bitsValue, List.foldl_cons,
    List.foldl_nil, mask6_eq, Nat.shiftRight_eq_div_pow, List.cons.injEq, and_true,
    List.length_cons, List.length_nil, List.replicate, Bool.toNat_false]
  simp only [Nat.reducePow, Nat.mul_zero, Nat.zero_add, Nat.add_zero]
  refine ⟨?_, ?_, ?_⟩ <;> omega

theorem sextets_one (b0 : Nat) (h0 : b0 < 256) :
    sextets (byteBits b0) = [((b0 <<< 16) >>> 18) &&& 0x3F, ((b0 <<< 16) >>> 12) &&& 0x3F] := by
  have e : b0 <<< 16 = b0 * 65536 := by rw [Nat.shiftLeft_eq]
  rw [e]
  obtain ⟨e0, _, _, _, _, _, _, _, _⟩ := byte_bits b0 h0
  simp only [byteBits, List.cons_append, List.nil_append, sextets, bitsValue, List.foldl_cons,
    List.foldl_nil, mask6_eq, Nat.shiftRight_eq_div_pow, List.cons.injEq, and_true,
    List.length_cons, List.length_nil, List.replicate, Bool.toNat_false]
  simp only [Nat.reducePow, Nat.mul_zero, Nat.zero_add, Nat.add_zero]
  refine ⟨?_, ?_⟩ <;> omega

theorem base64Rfc_cons3 (b0 b1 b2 : Nat) (h0 : b0 < 256) (h1 : b1 < 256) (h2 : b2 < 256)
    (rest : Bytes) :
    base64Rfc (b0 :: b1 :: b2 :: rest) = EncodeToString [b0, b1, b2] ++ base64Rfc rest := by
  simp only [base64Rfc, List.map_cons, List.flatten_cons]
  rw [sextets_three b0 b1 b2 h0 h1 h2]
  simp only [List.map_cons, List.length_cons, EncodeToString, List.cons_append, List.nil_append]
  have : ((List.map encodeAt (sextets (List.map byteBits rest).flatten)).length + 1 + 1 + 1 + 1) % 4
      = (List.map encodeAt (sextets (List.map byteBits rest).flatten)).length % 4 := by omega
  rw [this]

/-- The encoder of `StdEncoding` computes base 64 as RFC 4648 defines it. -/
theorem EncodeToString_eq_rfc (p : Bytes) (hp : IsBytes p) : EncodeToString p = base64Rfc p := by
  induction p using EncodeToString.induct with
  | case1 b0 b1 b2 rest ih =>
      have h0 : b0 < 256 := hp b0 (by simp)
      have h1 : b1 < 256 := hp b1 (by simp)
      have h2 : b2 < 256 := hp b2 (by simp)
      have hrest : IsBytes rest := fun b hb => hp b (by simp [hb])
      rw [base64Rfc_cons3 b0 b1 b2 h0 h1 h2, EncodeToString_cons3, ih hrest]
  | case2 b0 b1 =>
      have h0 : b0 < 256 := hp b0 (by simp)
      have h1 : b1 < 256 := hp b1 (by simp)
      simp only [base64Rfc, List.map_cons, List.map_nil, List.flatten_cons, List.flatten_nil,
        List.append_nil]
      rw [sextets_two b0 b1 h0 h1]
      simp [EncodeToString, List.replicate]
  | case3 b0 =>
      have h0 : b0 < 256 := hp b0 (by simp)
      simp only [base64Rfc, List.map_cons, List.map_nil, List.flatten_cons, List.flatten_nil,
        List.append_nil]
      rw [sextets_one b0 h0]
      simp [EncodeToString, List.replicate]
  | case4 => simp [base64Rfc, EncodeToString, sextets]

/-! ### The rounds granted to `TrimSpace` are enough -/

theorem spaceRunes_pos : ∀ r ∈ spaceRunes, 0 < r.length := by decide

theorem trimLeftFuel_fuel : ∀ fuel1 fuel2 s, s.length ≤ fuel1 → s.length ≤ fuel2 →
    trimLeftFuel fuel1 s = trimLeftFuel fuel2 s := by
  intro fuel1
  induction fuel1 with
  | zero =>
      intro fuel2 s h1 _
      have : s = [] := List.length_eq_zero.mp (by omega)
      subst this
      cases fuel2 with
      | zero => rfl
      | succ f2 =>
          have : spaceRunes.find? (fun r => decide (([] : Bytes).take r.length = r)) = none := by
            decide
          simp only [trimLeftFuel, this]
  | succ f1 ih =>
      intro fuel2 s h1 h2
      cases hfind : spaceRunes.find? (fun r => decide (s.take r.length = r)) with
      | none =>
          cases fuel2 with
          | zero => simp only [trimLeftFuel, hfind]
          | succ f2 => simp only [trimLeftFuel, hfind]
      | some r =>
          have hr : 0 < r.length := spaceRunes_pos r (List.mem_of_find?_eq_some hfind)
          have htake : s.take r.length = r := by
            simpa using List.find?_some hfind
          have hlen : r.length ≤ s.length := by
            have := congrArg List.length htake
            rw [List.length_take] at this
            omega
          have hdrop : (s.drop r.length).length < s.length := by
            rw [List.length_drop]
            omega
          cases fuel2 with
          | zero => omega
          | succ f2 =>
              simp only [trimLeftFuel, hfind]
              exact ih f2 _ (by omega) (by omega)

theorem trimRightFuel_fuel : ∀ fuel1 fuel2 s, s.length ≤ fuel1 → s.length ≤ fuel2 →
    trimRightFuel fuel1 s = trimRightFuel fuel2 s := by
  intro fuel1
  induction fuel1 with
  | zero =>
      intro fuel2 s h1 _
      have : s = [] := List.length_eq_zero.mp (by omega)
      subst this
      cases fuel2 with
      | zero => rfl
      | succ f2 =>
          have : spaceRunes.find?
              (fun r => decide (([] : Bytes).drop (([] : Bytes).length - r.length) = r)) = none := by
            decide
          simp only [trimRightFuel, this]
  | succ f1 ih =>
      intro fuel2 s h1 h2
      cases hfind : spaceRunes.find? (fun r => decide (s.drop (s.length - r.length) = r)) with
      | none =>
          cases fuel2 with
          | zero => simp only [trimRightFuel, hfind]
          | succ f2 => simp only [trimRightFuel, hfind]
      | some r =>
          have hr : 0 < r.length := spaceRunes_pos r (List.mem_of_find?_eq_some hfind)
          have hdrop : s.drop (s.length - r.length) = r := by
            simpa using List.find?_some hfind
          have hlen : r.length ≤ s.length := by
            have := congrArg List.length hdrop
            rw [List.length_drop] at this
            omega
          have htake : (s.take (s.length - r.length)).length < s.length := by
            rw [List.length_take]
            omega
          cases fuel2 with
          | zero => omega
          | succ f2 =>
              simp only [trimRightFuel, hfind]
              exact ih f2 _ (by omega) (by omega)

/-- More rounds than the length of the string change nothing: `TrimSpace` never
stops for lack of rounds. -/
theorem TrimSpace_total (s : Bytes) (fuel1 fuel2 : Nat) (h1 : s.length ≤ fuel1)
    (h2 : (trimLeftFuel s.length s).length ≤ fuel2) :
    trimRightFuel fuel2 (trimLeftFuel fuel1 s) = TrimSpace s := by
  rw [TrimSpace, trimLeftFuel_fuel fuel1 s.length s h1 (Nat.le_refl _)]
  exact trimRightFuel_fuel fuel2 _ _ h2 (Nat.le_refl _)

/-! ### The two handshake paths -/

theorem handleStream_session (curve : CurveParams) (priv : PrivateKey) (line : ReadResult) :
    (handleStream curve (some priv) line).2 = acceptPeer curve priv line.data := rfl

theorem main_session (curve : CurveParams) (priv : PrivateKey) (line : ReadResult) :
    (main curve (some priv) line).2 = acceptPeer curve priv line.data := rfl

theorem acceptPeer_decoded (curve : CurveParams) (priv : PrivateKey) (line bs : Bytes)
    (h : DecodeString line = (bs, none)) :
    acceptPeer curve priv line =
      if bs.length < 32 then .sliceFailure
      else .active priv ⟨curve, setBytes (bs.take 32), setBytes (bs.drop 32)⟩ priv := by
  rw [acceptPeer, h]
  simp only [peerPublicKey]
  split_ifs <;> rfl

theorem TrimSpace_exit_ne (str : Bytes) (h : TrimSpace str = ascii "exit") :
    str ≠ [] ∧ str ≠ ascii "\n" := by
  constructor
  · rintro rfl
    exact absurd h (by decide)
  · rintro rfl
    exact absurd h (by decide)

theorem readStep_opened (Decrypt : PrivateKey → Bytes → Bytes × Bool) (privKey : PrivateKey)
    (line : ReadResult) (decodedStr str : Bytes) (err : Bool)
    (hdec : DecodeString line.data = (decodedStr, none))
    (hopen : Decrypt privKey decodedStr = (str, err)) :
    readStep Decrypt privKey line =
      if str = [] ∨ err = true then .exit [] 1
      else if str ≠ ascii "\n" then
        if TrimSpace str ≠ ascii "exit" then .next [.stdout (display str)]
        else .exit [.stdout (ascii "Peer exited chat!\n")] 0
      else .next [] := by
  rw [readStep]
  simp only [hdec, hopen]

/-! ## The claims -/

/-- C1 (the code departs from the claim): the public point of the P-256 key pair
`D = 379` is on the curve, its first coordinate has a leading zero byte, and the
peer that receives its frame builds a different point from it. -/
theorem key_round_trip_broken :
    p256.IsOnCurve keyShortX.PublicKey.X keyShortX.PublicKey.Y = true ∧
    (serialPubKey keyShortX).length = 63 ∧
    (main p256 (some keyShortY) ⟨frame (serialPubKey keyShortX), false⟩).2
      = .active keyShortY
          ⟨p256, 38565918442879835402628428674150445186111934220970977695638672437503590402747,
            135202726502371505477464896860269670131961343269704667067605614209623408530⟩
          keyShortY ∧
    (handleStream p256 (some keyShortY) ⟨frame (serialPubKey keyShortX), false⟩).2
      ≠ .active keyShortY ⟨p256, keyShortX.PublicKey.X, keyShortX.PublicKey.Y⟩ keyShortY := by
  decide

/-- C2 (the code departs from the claim): the public point of the P-256 key pair
`D = 43` is on the curve and is serialised in 63 bytes, not 64, its second
coordinate taking 31 bytes; the first coordinate of the point of the key pair
`D = 379` takes 31 bytes as well. -/
theorem key_width_varies :
    p256.IsOnCurve keyShortY.PublicKey.X keyShortY.PublicKey.Y = true ∧
    (natBytes keyShortY.PublicKey.X).length = 32 ∧
    (natBytes keyShortY.PublicKey.Y).length = 31 ∧
    (serialPubKey keyShortY).length = 63 ∧
    (natBytes keyShortX.PublicKey.X).length = 31 := by
  decide

/-- C3, counterexample: a peer key of 32 bytes and one of 65 bytes are both
accepted. -/
theorem odd_length_key_accepted :
    (List.replicate 31 0 ++ [5]).length = 32 ∧
    (handleStream p256 (some keyShortY) ⟨frame (List.replicate 31 0 ++ [5]), false⟩).2
      = .active keyShortY ⟨p256, 5, 0⟩ keyShortY ∧
    (List.replicate 63 0 ++ [1, 2]).length = 65 ∧
    (main p256 (some keyShortY) ⟨frame (List.replicate 63 0 ++ [1, 2]), false⟩).2
      = .active keyShortY ⟨p256, 0, 258⟩ keyShortY := by
  decide

/-- C3, amended: the length of the decoded peer key is not compared with 64. With
at least 32 bytes it is accepted on both handshake paths, the first 32 bytes
read as X and all the others as Y, so that no byte is dropped or added; with
fewer than 32 bytes no key is built and the handshake stops on the slice
expression. -/
theorem key_length_unchecked (curve : CurveParams) (priv : PrivateKey) (line bs : Bytes)
    (e : Bool) (hdec : DecodeString line = (bs, none)) :
    (handleStream curve (some priv) ⟨line, e⟩).2 =
      (if bs.length < 32 then .sliceFailure
       else .active priv ⟨curve, setBytes (bs.take 32), setBytes (bs.drop 32)⟩ priv) ∧
    (main curve (some priv) ⟨line, e⟩).2 =
      (if bs.length < 32 then .sliceFailure
       else .active priv ⟨curve, setBytes (bs.take 32), setBytes (bs.drop 32)⟩ priv) ∧
    setBytes (bs.take 32) * 256 ^ (bs.length - 32) + setBytes (bs.drop 32) = setBytes bs := by
  refine ⟨?_, ?_, ?_⟩
  · rw [handleStream_session]
    exact acceptPeer_decoded curve priv line bs hdec
  · rw [main_session]
    exact acceptPeer_decoded curve priv line bs hdec
  · have := setBytes_append (bs.take 32) (bs.drop 32)
    rw [List.take_append_drop, List.length_drop] at this
    exact this.symm

/-- C3, witness: a key of 33 bytes sent as a frame. -/
theorem key_length_unchecked_witness :
    DecodeString (frame (List.replicate 32 1 ++ [9])) = (List.replicate 32 1 ++ [9], none) ∧
    (main p256 (some keyShortX) ⟨frame (List.replicate 32 1 ++ [9]), false⟩).2 =
      (if (List.replicate 32 1 ++ [9]).length < 32 then .sliceFailure
       else .active keyShortX
         ⟨p256, setBytes ((List.replicate 32 1 ++ [9]).take 32),
           setBytes ((List.replicate 32 1 ++ [9]).drop 32)⟩ keyShortX) :=
  ⟨by decide,
   (key_length_unchecked p256 keyShortX (frame (List.replicate 32 1 ++ [9]))
      (List.replicate 32 1 ++ [9]) false (by decide)).2.1⟩

/-- C4, counterexample: 64 zero bytes give X = 0 and Y = 0, which is not on the
curve, and both handshake paths start the loops with that key. -/
theorem off_curve_key_accepted :
    p256.IsOnCurve 0 0 = false ∧
    (List.replicate 64 0).length = 64 ∧
    (handleStream p256 (some keyShortY) ⟨frame (List.replicate 64 0), false⟩).2
      = .active keyShortY ⟨p256, 0, 0⟩ keyShortY ∧
    (main p256 (some keyShortY) ⟨frame (List.replicate 64 0), false⟩).2
      = .active keyShortY ⟨p256, 0, 0⟩ keyShortY := by
  decide

/-- C4, amended: a decoded peer key of 64 bytes is accepted on both handshake
paths whether or not its coordinates satisfy the equation of the curve: the
public key built from the two halves is the one handed to `writeData`. -/
theorem curve_membership_unchecked (curve : CurveParams) (priv : PrivateKey) (line bs : Bytes)
    (e : Bool) (hdec : DecodeString line = (bs, none)) (hlen : bs.length = 64) :
    (handleStream curve (some priv) ⟨line, e⟩).2 =
      .active priv ⟨curve, setBytes (bs.take 32), setBytes (bs.drop 32)⟩ priv ∧
    (main curve (some priv) ⟨line, e⟩).2 =
      .active priv ⟨curve, setBytes (bs.take 32), setBytes (bs.drop 32)⟩ priv := by
  have h32 : ¬ bs.length < 32 := by omega
  refine ⟨?_, ?_⟩
  · rw [handleStream_session, acceptPeer_decoded curve priv line bs hdec, if_neg h32]
  · rw [main_session, acceptPeer_decoded curve priv line bs hdec, if_neg h32]

/-- C4, witness: the 64 bytes `0, ..., 0, 1`, that is X = 0 and Y = 1, off the
curve. -/
theorem curve_membership_unchecked_witness :
    p256.IsOnCurve 0 1 = false ∧
    (handleStream p256 (some keyShortX) ⟨frame (List.replicate 63 0 ++ [1]), true⟩).2 =
      .active keyShortX
        ⟨p256, setBytes ((List.replicate 63 0 ++ [1]).take 32),
          setBytes ((List.replicate 63 0 ++ [1]).drop 32)⟩ keyShortX :=
  ⟨by decide,
   (curve_membership_unchecked p256 keyShortX (frame (List.replicate 63 0 ++ [1]))
      (List.replicate 63 0 ++ [1]) true (by decide) (by decide)).1⟩


/-- C5: the string handed to the stream for a payload is the standard padded
base64 encoding of the payload - the one RFC 4648 defines, which the encoder of
`StdEncoding` computes - followed by one line feed. The line feed is the last
byte and occurs nowhere before it: the encoding is made of alphabet characters
and `=` only, four for every three bytes begun. What the code writes is exactly
that: `handleStream` logs its line and writes the frame of the serialised key
and nothing else, the dialing branch of `main` writes that frame and nothing
else, and a round of `writeData` prints the prompt and then either ends the
process with status 1, having written nothing (the local read or `Encrypt`
failed), or writes the frame of the output of `Encrypt` and nothing else and
goes on with the remaining input. -/
theorem wire_frame_format (p : Bytes) (hp : IsBytes p) :
    frame p = base64Rfc p ++ [10] ∧
    frame p = EncodeToString p ++ [10] ∧
    (frame p).getLast? = some 10 ∧
    10 ∉ (frame p).dropLast ∧
    (∀ c ∈ (frame p).dropLast, c ∈ encodeStd ∨ c = padChar) ∧
    (frame p).length = 4 * ((p.length + 2) / 3) + 1 ∧
    (∀ curve priv line, (handleStream curve (some priv) line).1
        = [Event.log (ascii "New chat connection!"),
           Event.send (EncodeToString (serialPubKey priv) ++ [10])]) ∧
    (∀ curve priv line, (main curve (some priv) line).1
        = [Event.send (EncodeToString (serialPubKey priv) ++ [10])]) ∧
    (∀ curve line, handleStream curve none line
        = ([Event.log (ascii "New chat connection!")], .exit 1)) ∧
    (∀ curve line, main curve none line = ([], .exit 1)) ∧
    (∀ Encrypt pubKey privKey turn,
        writeStep Encrypt pubKey privKey turn =
          if turn.stdin.err = true ∨ (Encrypt pubKey privKey turn.stdin.data).2 = true then
            .exit [.stdout (ascii "> ")] 1
          else
            .next [.stdout (ascii "> "),
              .send (EncodeToString (Encrypt pubKey privKey turn.stdin.data).1 ++ [10])]) ∧
    (∀ Encrypt pubKey privKey turn later,
        writeData Encrypt pubKey privKey (turn :: later) =
          if turn.stdin.err = true ∨ (Encrypt pubKey privKey turn.stdin.data).2 = true then
            ([.stdout (ascii "> ")], .exited 1)
          else
            (.stdout (ascii "> ") ::
              .send (EncodeToString (Encrypt pubKey privKey turn.stdin.data).1 ++ [10]) ::
              (writeData Encrypt pubKey privKey later).1,
             (writeData Encrypt pubKey privKey later).2)) ∧
    (∀ Encrypt pubKey privKey,
        writeData Encrypt pubKey privKey [] = ([.stdout (ascii "> ")], .running)) := by
  have hlf : ascii "\n" = [10] := by decide
  have hframe : frame p = EncodeToString p ++ [10] := by rw [frame, hlf]
  have hdrop : (frame p).dropLast = EncodeToString p := by
    rw [hframe, List.dropLast_concat]
  have hstep : ∀ (Encrypt : PublicKey → PrivateKey → Bytes → Bytes × Bool)
      (pubKey : PublicKey) (privKey : PrivateKey) (turn : WriteTurn),
      writeStep Encrypt pubKey privKey turn =
        if turn.stdin.err = true ∨ (Encrypt pubKey privKey turn.stdin.data).2 = true then
          .exit [.stdout (ascii "> ")] 1
        else
          .next [.stdout (ascii "> "),
            .send (EncodeToString (Encrypt pubKey privKey turn.stdin.data).1 ++ [10])] := by
    intro Encrypt pubKey privKey turn
    rw [writeStep]
    by_cases h1 : turn.stdin.err = true
    · simp [h1]
    · by_cases h2 : (Encrypt pubKey privKey turn.stdin.data).2 = true
      · simp [h1, h2]
      · simp [h1, h2, frame, hlf]
  refine ⟨?_, hframe, ?_, ?_, ?_, ?_, ?_, ?_, ?_, ?_, hstep, ?_, ?_⟩
  · rw [hframe, EncodeToString_eq_rfc p hp]
  · rw [hframe, List.getLast?_append]
    simp
  · rw [hdrop]
    exact lf_not_in_encoding p
  · rw [hdrop]
    exact EncodeToString_chars p
  · rw [hframe, List.length_append, EncodeToString_length]
    simp
  · intro curve priv line
    simp [handleStream, frame, hlf]
  · intro curve priv line
    simp [main, frame, hlf]
  · intro curve line
    rfl
  · intro curve line
    rfl
  · intro Encrypt pubKey privKey turn later
    rw [writeData, hstep]
    by_cases h : turn.stdin.err = true ∨ (Encrypt pubKey privKey turn.stdin.data).2 = true
    · rw [if_pos h, if_pos h]
    · rw [if_neg h, if_neg h]
      simp
  · intro Encrypt pubKey privKey
    rfl

/-- C5, witness: the frame of the two bytes of `hi`. -/
theorem wire_frame_format_witness :
    IsBytes (ascii "hi") ∧
    frame (ascii "hi") = base64Rfc (ascii "hi") ++ [10] ∧
    frame (ascii "hi") = ascii "aGk=\n" :=
  ⟨by decide, (wire_frame_format (ascii "hi") (by decide)).1, by decide⟩

/-- C7, counterexample: after the line `exit` the loop of `writeData` reads the
next line, sends a second frame and is still running. -/
theorem local_exit_keeps_writing :
    writeData plainEncrypt keyShortX.PublicKey keyShortY
        [⟨⟨ascii "exit\n", false⟩, false, false⟩, ⟨⟨ascii "still here\n", false⟩, false, false⟩]
      = ([.stdout (ascii "> "), .send (frame (ascii "exit\n")),
          .stdout (ascii "> "), .send (frame (ascii "still here\n")),
          .stdout (ascii "> ")], .running) := by
  decide

/-- C7, amended: when the line read from local input is `exit` with its line feed
and `Encrypt` succeeds, `writeData` sends exactly one frame for it and then goes
on with its loop as after any other line - it prints the prompt and reads the
next line; the keyword does not end `writeData`. -/
theorem local_exit_sends_and_continues
    (Encrypt : PublicKey → PrivateKey → Bytes → Bytes × Bool)
    (pubKey : PublicKey) (privKey : PrivateKey) (writeErr flushErr : Bool)
    (later : List WriteTurn) (sendData : Bytes)
    (hseal : Encrypt pubKey privKey (ascii "exit\n") = (sendData, false)) :
    writeData Encrypt pubKey privKey (⟨⟨ascii "exit\n", false⟩, writeErr, flushErr⟩ :: later)
      = (.stdout (ascii "> ") :: .send (frame sendData) ::
          (writeData Encrypt pubKey privKey later).1,
         (writeData Encrypt pubKey privKey later).2) := by
  rw [writeData, writeStep]
  simp [hseal]

/-- C7, witness: `exit` followed by one more line. -/
theorem local_exit_sends_and_continues_witness :
    plainEncrypt keyShortX.PublicKey keyShortY (ascii "exit\n") = (ascii "exit\n", false) ∧
    writeData plainEncrypt keyShortX.PublicKey keyShortY
        (⟨⟨ascii "exit\n", false⟩, false, false⟩ :: [⟨⟨ascii "bye\n", false⟩, false, false⟩])
      = (.stdout (ascii "> ") :: .send (frame (ascii "exit\n")) ::
          (writeData plainEncrypt keyShortX.PublicKey keyShortY
            [⟨⟨ascii "bye\n", false⟩, false, false⟩]).1,
         (writeData plainEncrypt keyShortX.PublicKey keyShortY
            [⟨⟨ascii "bye\n", false⟩, false, false⟩]).2) :=
  ⟨rfl, local_exit_sends_and_continues plainEncrypt keyShortX.PublicKey keyShortY false false
     [⟨⟨ascii "bye\n", false⟩, false, false⟩] (ascii "exit\n") rfl⟩


/-- C9, counterexample: `EXIT` and `Exit` equal the keyword when case is ignored,
yet `readData` displays them and stays in its loop. -/
theorem keyword_upper_case_displayed :
    equalFold (TrimSpace (ascii "EXIT")) (ascii "exit") = true ∧
    readData plainDecrypt keyShortY [⟨frame (ascii "EXIT"), false⟩]
      = ([.stdout (display (ascii "EXIT"))], .running) ∧
    equalFold (TrimSpace (ascii "Exit\n")) (ascii "exit") = true ∧
    readData plainDecrypt keyShortY [⟨frame (ascii "Exit\n"), false⟩]
      = ([.stdout (display (ascii "Exit\n"))], .running) := by
  decide

/-- C9, amended: the comparison with the keyword is exact. For a plaintext
decrypted without error, one round of `readData` ends the process with status 0
and the notice that the peer left when the trimmed plaintext is `exit` in
lower case; any other plaintext is displayed and the loop goes on, except the
lone line feed, which is skipped, and the empty plaintext, which ends the
process with status 1. -/
theorem keyword_case_sensitive (Decrypt : PrivateKey → Bytes → Bytes × Bool)
    (privKey : PrivateKey) (line : ReadResult) (decodedStr str : Bytes)
    (hdec : DecodeString line.data = (decodedStr, none))
    (hopen : Decrypt privKey decodedStr = (str, false)) :
    (TrimSpace str = ascii "exit" →
      readStep Decrypt privKey line = .exit [.stdout (ascii "Peer exited chat!\n")] 0) ∧
    (TrimSpace str ≠ ascii "exit" → str ≠ [] → str ≠ ascii "\n" →
      readStep Decrypt privKey line = .next [.stdout (display str)]) ∧
    (str = ascii "\n" → readStep Decrypt privKey line = .next []) ∧
    (str = [] → readStep Decrypt privKey line = .exit [] 1) := by
  rw [readStep_opened Decrypt privKey line decodedStr str false hdec hopen]
  refine ⟨?_, ?_, ?_, ?_⟩
  · intro h
    obtain ⟨h1, h2⟩ := TrimSpace_exit_ne str h
    simp [h1, h2, h]
  · intro h h1 h2
    simp [h1, h2, h]
  · intro h
    subst h
    have h1 : ascii "\n" ≠ [] := by decide
    simp [h1]
  · intro h
    simp [h]

/-- C9, witness: the four kinds of plaintext. -/
theorem keyword_case_sensitive_witness :
    readStep plainDecrypt keyShortY ⟨frame (ascii "exit\n"), false⟩
      = .exit [.stdout (ascii "Peer exited chat!\n")] 0 ∧
    readStep plainDecrypt keyShortY ⟨frame (ascii "EXIT\n"), false⟩
      = .next [.stdout (display (ascii "EXIT\n"))] ∧
    readStep plainDecrypt keyShortY ⟨frame (ascii "\n"), false⟩ = .next [] ∧
    readStep plainDecrypt keyShortY ⟨frame [], false⟩ = .exit [] 1 :=
  ⟨(keyword_case_sensitive plainDecrypt keyShortY ⟨frame (ascii "exit\n"), false⟩
      (ascii "exit\n") (ascii "exit\n") (by decide) rfl).1 (by decide),
   (keyword_case_sensitive plainDecrypt keyShortY ⟨frame (ascii "EXIT\n"), false⟩
      (ascii "EXIT\n") (ascii "EXIT\n") (by decide) rfl).2.1 (by decide) (by decide) (by decide),
   (keyword_case_sensitive plainDecrypt keyShortY ⟨frame (ascii "\n"), false⟩
      (ascii "\n") (ascii "\n") (by decide) rfl).2.2.1 rfl,
   (keyword_case_sensitive plainDecrypt keyShortY ⟨frame [], false⟩
      [] [] (by decide) rfl).2.2.2 rfl⟩

/-- C10: a frame survives the trip. The receiver, reading up to and including the
first line feed, gets the whole frame and nothing more, and `DecodeString`, given
that line with its line feed still attached, returns the payload and no error.
So `readData` hands `Decrypt` exactly the payload of a message frame, and both
handshake paths build the peer key from exactly the serialised key, which is
always a byte string. -/
theorem frame_round_trip (p : Bytes) (hp : IsBytes p) :
    (∀ rest : Bytes, ReadString 10 (frame p ++ rest) = (⟨frame p, false⟩, rest)) ∧
    DecodeString (EncodeToString p ++ ascii "\n") = (p, none) ∧
    (∀ Decrypt privKey e, readStep Decrypt privKey ⟨frame p, e⟩ =
      if (Decrypt privKey p).1 = [] ∨ (Decrypt privKey p).2 = true then .exit [] 1
      else if (Decrypt privKey p).1 ≠ ascii "\n" then
        if TrimSpace (Decrypt privKey p).1 ≠ ascii "exit" then
          .next [.stdout (display (Decrypt privKey p).1)]
        else .exit [.stdout (ascii "Peer exited chat!\n")] 0
      else .next []) ∧
    (∀ (k : PrivateKey) curve priv e,
      DecodeString (frame (serialPubKey k)) = (serialPubKey k, none) ∧
      (handleStream curve (some priv) ⟨frame (serialPubKey k), e⟩).2 =
        (match peerPublicKey curve (serialPubKey k) with
         | none => .sliceFailure
         | some peerKey => .active priv peerKey priv) ∧
      (main curve (some priv) ⟨frame (serialPubKey k), e⟩).2 =
        (match peerPublicKey curve (serialPubKey k) with
         | none => .sliceFailure
         | some peerKey => .active priv peerKey priv)) := by
  have hlf : ascii "\n" = [10] := by decide
  refine ⟨?_, DecodeString_frame p hp, ?_, ?_⟩
  · intro rest
    rw [frame, hlf]
    exact ReadString_line 10 (EncodeToString p) rest (lf_not_in_encoding p)
  · intro Decrypt privKey e
    exact readStep_opened Decrypt privKey ⟨frame p, e⟩ p (Decrypt privKey p).1
      (Decrypt privKey p).2 (DecodeString_frame p hp) rfl
  · intro k curve priv e
    have hk : DecodeString (frame (serialPubKey k)) = (serialPubKey k, none) := by
      apply DecodeString_frame
      intro b hb
      rw [serialPubKey, List.mem_append] at hb
      rcases hb with h | h
      · exact natBytes_isBytes _ b h
      · exact natBytes_isBytes _ b h
    refine ⟨hk, ?_, ?_⟩
    · rw [handleStream_session, acceptPeer]
      simp only [hk]
    · rw [main_session, acceptPeer]
      simp only [hk]

/-- C10, witness: the payload `hello`, with one more frame behind it. -/
theorem frame_round_trip_witness :
    IsBytes (ascii "hello") ∧
    ReadString 10 (frame (ascii "hello") ++ frame (ascii "x"))
      = (⟨frame (ascii "hello"), false⟩, frame (ascii "x")) ∧
    DecodeString (frame (ascii "hello")) = (ascii "hello", none) :=
  ⟨by decide, (frame_round_trip (ascii "hello") (by decide)).1 (frame (ascii "x")),
   (frame_round_trip (ascii "hello") (by decide)).2.1⟩

end Babyl
